import Mathlib

/-!
Verification of the MNSIM Max-Cut / RRAM-pSA core.

This file gives a shallow embedding, over exact arithmetic (ℚ for the purely
rational data paths, ℝ where the code uses sqrt / tanh / real powers), of:

* `MNSIM/Interface/maxcut_interface.py`
  - `MaxCutInterface.quantize_weights`
  - `MaxCutInterface.partition_matrix_to_crossbars`
* `MNSIM/Interface/rram_psa.py`
  - `RRAMpSA.__init__` (the fields used by the claims)
  - `RRAMpSA.rram_matrix_vector_multiply`
  - `RRAMpSA.calculate_cut_value_rram`
  - `RRAMpSA.psa_annealing_step`
  - `RRAMpSA.set_annealing_parameters`
  - the trial loop / aggregation part of `RRAMpSA.run_psa_trials`

Python / numpy semantics that matter are modelled explicitly: `np.round`
rounds halves to even; Python `int(...)` truncates toward zero; numpy
reductions over empty arrays raise (`ValueError`); out-of-range list indexing
raises (`IndexError`).  Fallible code is embedded with `Except`.
-/

/-- Python `int(x)` on a float: truncation toward zero. -/
def pyInt (q : ℚ) : ℤ := if 0 ≤ q then ⌊q⌋ else ⌈q⌉

/-- numpy `np.round` on a scalar: round half to even (banker's rounding). -/
def npRound (q : ℚ) : ℤ :=
  if q - ⌊q⌋ < 1/2 then ⌊q⌋
  else if 1/2 < q - ⌊q⌋ then ⌊q⌋ + 1
  else if ⌊q⌋ % 2 = 0 then ⌊q⌋ else ⌊q⌋ + 1

/-- Number of steps of Python `range(0, N, step)`, i.e. `ceil(N / step)` for
`step > 0`. -/
def ceilDiv (a b : ℕ) : ℕ := (a + b - 1) / b

/-- Row-major list of all entries of an `N×N` matrix (numpy flattening order,
as used by `W.min()` / `W.max()` over the whole array). -/
def matList (N : ℕ) (W : ℕ → ℕ → ℚ) : List ℚ :=
  (List.range N).flatMap fun i => (List.range N).map fun j => W i j

/-- Python-side errors that the embedded code can raise. -/
inductive PyError : Type
  /-- numpy reduction (`min`/`max`) over an empty array. -/
  | valueError : PyError
  /-- list index out of range. -/
  | indexError : PyError
deriving DecidableEq

/-- The fields of `MaxCutInterface.__init__` that the core claims depend on
(`maxcut_interface.py`, lines 36-46): the loaded adjacency matrix, the node
count, the crossbar tile shape `Xbar_Size`, `Device_Level` and
`Device_Resistance`. -/
structure MaxCutInterface where
  num_nodes : ℕ
  adjacency_matrix : ℕ → ℕ → ℚ
  xbar_rows : ℕ
  xbar_cols : ℕ
  device_levels : ℕ
  device_resistance : List ℚ

/-- `W.min()` over the whole matrix (well-defined for `num_nodes ≥ 1`; the
empty case is handled by `MaxCutInterface.quantize_weights`). -/
def MaxCutInterface.wMin (mc : MaxCutInterface) : ℚ :=
  (matList mc.num_nodes mc.adjacency_matrix).foldr min (mc.adjacency_matrix 0 0)

/-- `W.max()` over the whole matrix. -/
def MaxCutInterface.wMax (mc : MaxCutInterface) : ℚ :=
  (matList mc.num_nodes mc.adjacency_matrix).foldr max (mc.adjacency_matrix 0 0)

/-- The normalized matrix `W_norm` of `quantize_weights` (lines 106-111):
`(W - W_min) / (W_max - W_min)` if `W_max > W_min`, else `W` itself. -/
def MaxCutInterface.wNorm (mc : MaxCutInterface) (i j : ℕ) : ℚ :=
  if mc.wMin < mc.wMax then
    (mc.adjacency_matrix i j - mc.wMin) / (mc.wMax - mc.wMin)
  else
    mc.adjacency_matrix i j

/-- `quantized_levels = np.round(W_norm * (device_levels - 1)).astype(int)`
(line 114). -/
def MaxCutInterface.quantized_level (mc : MaxCutInterface) (i j : ℕ) : ℤ :=
  npRound (mc.wNorm i j * ((mc.device_levels : ℚ) - 1))

/-- One entry of `resistance_values` after the masking loop of lines 117-120:
levels in `[0, device_levels)` are replaced by `device_resistance[level]`;
any other level keeps the `np.zeros_like` initial value `0`. -/
def MaxCutInterface.resistanceEntry (mc : MaxCutInterface) (i j : ℕ) : ℚ :=
  if 0 ≤ mc.quantized_level i j ∧ mc.quantized_level i j < (mc.device_levels : ℤ) then
    mc.device_resistance.getD (mc.quantized_level i j).toNat 0
  else 0

/-- `MaxCutInterface.quantize_weights` (lines 101-122) with its Python error
behaviour: `W.min()` on a `0×0` matrix raises `ValueError`; the loop
`for i in range(device_levels)` reads `device_resistance[i]` unconditionally,
so it raises `IndexError` as soon as `i` reaches `len(device_resistance)`
whenever the table is shorter than `device_levels`. -/
def MaxCutInterface.quantize_weights (mc : MaxCutInterface) :
    Except PyError (ℕ → ℕ → ℚ) :=
  if mc.num_nodes = 0 then .error .valueError
  else if mc.device_resistance.length < mc.device_levels then .error .indexError
  else .ok mc.resistanceEntry

/-- One crossbar tile record (`partition_info`, lines 148-153): origin
`position`, occupied `actual_size`, canonical shape, and the zero-padded
resistance block. -/
structure Tile (α : Type) where
  rt : ℕ
  ct : ℕ
  posI : ℕ
  posJ : ℕ
  actRows : ℕ
  actCols : ℕ
  block : ℕ → ℕ → α

/-- The tile with origin `(i, j)` cut from the `N×N` matrix `M`
(lines 136-153): `end_i = min(i + Rt, N)`, `end_j = min(j + Ct, N)`, block
equal to the occupied submatrix zero-padded to the canonical `Rt × Ct`
shape. -/
def mkTile {α : Type} [Zero α] (M : ℕ → ℕ → α) (N Rt Ct i j : ℕ) : Tile α :=
  { rt := Rt
    ct := Ct
    posI := i
    posJ := j
    actRows := min (i + Rt) N - i
    actCols := min (j + Ct) N - j
    block := fun r c =>
      if r < min (i + Rt) N - i ∧ c < min (j + Ct) N - j then M (i + r) (j + c)
      else 0 }

/-- The tile sequence of `partition_matrix_to_crossbars` (lines 134-154) over
an arbitrary matrix: origins step through `range(0, N, Rt) × range(0, N, Ct)`
in row-major order; `range(0, N, s)` is `[b * s | b < ceil(N / s)]`. -/
def crossbarTiles {α : Type} [Zero α] (M : ℕ → ℕ → α) (N Rt Ct : ℕ) :
    List (Tile α) :=
  (List.range (ceilDiv N Rt)).flatMap fun bi =>
    (List.range (ceilDiv N Ct)).map fun bj => mkTile M N Rt Ct (bi * Rt) (bj * Ct)

/-- `MaxCutInterface.partition_matrix_to_crossbars` (lines 124-156): partition
the quantized resistance matrix into crossbar-shaped tiles. -/
def MaxCutInterface.partition_matrix_to_crossbars (mc : MaxCutInterface) :
    Except PyError (List (Tile ℚ)) :=
  mc.quantize_weights.map fun Q => crossbarTiles Q mc.num_nodes mc.xbar_rows mc.xbar_cols

/-- The de-padded occupied region of a tile, placed at its origin: `some`
of the block entry when `(r, c)` falls inside the occupied region of `t`,
`none` otherwise. -/
def depad {α : Type} (t : Tile α) (r c : ℕ) : Option α :=
  if t.posI ≤ r ∧ r < t.posI + t.actRows ∧ t.posJ ≤ c ∧ c < t.posJ + t.actCols then
    some (t.block (r - t.posI) (c - t.posJ))
  else none

/-- Reassembling a tile list: the entry at `(r, c)` contributed by the first
tile whose occupied region covers `(r, c)`. -/
def reassemble {α : Type} (ts : List (Tile α)) (r c : ℕ) : Option α :=
  ts.findSome? fun t => depad t r c

/-- Conductance of one resistance entry (`rram_psa.py`, lines 51-53):
`G = 1/R` when `R` exceeds the threshold `min_resistance = 1e-10`, else `0`. -/
def conductanceOf {α : Type} [LinearOrderedField α]
    [DecidableRel ((· < ·) : α → α → Prop)] (r : α) : α :=
  if 1 / 10 ^ 10 < r then 1 / r else 0

/-- Row `k` of one tile's MVM (`np.dot(conductance_matrix, vec_segment)`,
line 54): the voltage slice starts at the tile's column origin, covers its
occupied columns, and is zero-padded up to the canonical width (lines 43-47). -/
def tileCurrent {α : Type} [LinearOrderedField α]
    [DecidableRel ((· < ·) : α → α → Prop)] (t : Tile α) (v : ℕ → α) (k : ℕ) : α :=
  ∑ c ∈ Finset.range t.ct,
    conductanceOf (t.block k c) * (if c < t.actCols then v (t.posJ + c) else 0)

/-- The contribution of one tile to output row `r`
(`result[pos_i:pos_i + actual_rows] += current_segment[:actual_rows]`,
line 57). -/
def tileContrib {α : Type} [LinearOrderedField α]
    [DecidableRel ((· < ·) : α → α → Prop)] (t : Tile α) (v : ℕ → α) (r : ℕ) : α :=
  if t.posI ≤ r ∧ r < t.posI + t.actRows then tileCurrent t v (r - t.posI) else 0

/-- `RRAMpSA.rram_matrix_vector_multiply` (lines 30-59): start from
`np.zeros(n)` and accumulate every tile's contribution. -/
def rram_matrix_vector_multiply {α : Type} [LinearOrderedField α]
    [DecidableRel ((· < ·) : α → α → Prop)]
    (ts : List (Tile α)) (n : ℕ) (v : ℕ → α) (r : ℕ) : α :=
  if r < n then (ts.map fun t => tileContrib t v r).sum else 0

/-- The fields set up by `RRAMpSA.__init__` (lines 16-28): the stored
`G_matrix` is the raw adjacency matrix, the Ising couplings are `J = -G`,
the external field is zero, and the crossbar partition is built from the
quantized matrix. -/
structure RRAMpSA where
  n : ℕ
  G_matrix : ℕ → ℕ → ℚ
  J_matrix : ℕ → ℕ → ℚ
  h_vector : ℕ → ℚ
  crossbar_partitions : Except PyError (List (Tile ℚ))

/-- `RRAMpSA.__init__` from a `MaxCutInterface`. -/
def RRAMpSA.init (mc : MaxCutInterface) : RRAMpSA :=
  { n := mc.num_nodes
    G_matrix := mc.adjacency_matrix
    J_matrix := fun i j => -(mc.adjacency_matrix i j)
    h_vector := fun _ => 0
    crossbar_partitions := mc.partition_matrix_to_crossbars }

/-- `RRAMpSA.calculate_cut_value_rram` (lines 89-99): sum
`G[i,j] * (1 - s_i * s_j)` over the strict upper triangle
(`np.triu_indices(n, k=1)`), then divide by 2. -/
def calculate_cut_value_rram (p : RRAMpSA) (s : ℕ → ℚ) : ℚ :=
  (∑ i ∈ Finset.range p.n, ∑ j ∈ Finset.range p.n,
      if i < j then p.G_matrix i j * (1 - s i * s j) else 0) / 2

/-- The per-trial accumulator state of `run_psa_trials` (lines 153-156):
the recorded cut list, the best cut value so far (initialised to `-1`), and
the best partition so far (initialised to `None`). -/
structure TrialState where
  cut_list : List ℤ
  best_cut : ℚ
  best_partition : Option (ℕ → ℤ)

/-- The tail of one trial of `run_psa_trials` (lines 180-191), given the
trial's final spin vector: evaluate `final_cut`, append `int(final_cut)` to
`cut_list`, and update the best cut / best partition when
`final_cut > best_cut` (partition via `spin > 0 → 1 else 0`). -/
def trialUpdate (p : RRAMpSA) (st : TrialState) (s : ℕ → ℚ) : TrialState :=
  { cut_list := st.cut_list ++ [pyInt (calculate_cut_value_rram p s)]
    best_cut :=
      if st.best_cut < calculate_cut_value_rram p s then calculate_cut_value_rram p s
      else st.best_cut
    best_partition :=
      if st.best_cut < calculate_cut_value_rram p s then
        some fun i => if 0 < s i then 1 else 0
      else st.best_partition }

/-- The trial loop and aggregation of `run_psa_trials` (lines 153-191), with
the stochastic annealing dynamics abstracted as the map `finalSpins` from
trial index to that trial's final spin vector (the loop body at lines
180-191 depends on each trial only through its final spin vector). -/
def run_psa_trials (p : RRAMpSA) (trials : ℕ) (finalSpins : ℕ → ℕ → ℚ) :
    TrialState :=
  (List.range trials).foldl (fun st t => trialUpdate p st (finalSpins t))
    { cut_list := [], best_cut := -1, best_partition := none }

/-- `np.mean(cut_list)` over the recorded (integer) cut list (line 198). -/
def cut_avg (st : TrialState) : ℚ :=
  ((st.cut_list.map (Int.cast : ℤ → ℚ)).sum) / st.cut_list.length

/-- `np.max(cut_list)` over the recorded cut list (line 199, nonempty case). -/
def cut_max (st : TrialState) : ℤ :=
  match st.cut_list with
  | [] => 0
  | h :: t => t.foldr max h

/-- `np.min(cut_list)` over the recorded cut list (line 200, nonempty case). -/
def cut_min (st : TrialState) : ℤ :=
  match st.cut_list with
  | [] => 0
  | h :: t => t.foldr min h

/-- `np.std(cut_list)` over the recorded cut list (line 201): the square root
of the mean squared deviation of the recorded integers. -/
noncomputable def cut_std (st : TrialState) : ℝ :=
  Real.sqrt (((st.cut_list.map fun z => ((z : ℝ) - (cut_avg st : ℝ)) ^ 2).sum) /
    st.cut_list.length)

/-- numpy `np.mean` of a list of reals. -/
noncomputable def npMean (l : List ℝ) : ℝ := l.sum / l.length

/-- numpy `np.var` of a list of reals: mean squared deviation from the mean. -/
noncomputable def npVar (l : List ℝ) : ℝ :=
  npMean (l.map fun x => (x - npMean l) ^ 2)

/-- numpy `np.max` of a nonempty list of reals. -/
def npMaxL (l : List ℝ) : ℝ :=
  match l with
  | [] => 0
  | h :: t => t.foldr max h

/-- numpy `np.min` of a nonempty list of reals. -/
def npMinL (l : List ℝ) : ℝ :=
  match l with
  | [] => 0
  | h :: t => t.foldr min h

/-- Row `j` of the coupling matrix, `self.J_matrix[j]`, as a list. -/
def rowList (N : ℕ) (J : ℕ → ℕ → ℝ) (j : ℕ) : List ℝ :=
  (List.range N).map (J j)

/-- The annealing parameter tuple returned by `set_annealing_parameters`
(line 141). -/
structure AnnealParams where
  I0_min : ℝ
  I0_max : ℝ
  beta : ℝ
  tau : ℕ
  cycles : ℕ

/-- `RRAMpSA.set_annealing_parameters` (lines 115-141): per-row statistics
`mean_each[j] = (n-1) * np.mean(J[j])` and
`std_each[j] = sqrt((n-1) * np.var(concat(J[j], -J[j])))`,
`sigma = np.mean(std_each)`; the gain range by parameterization mode; and
`beta = (I0_min / I0_max) ** (tau / (cycles - 1))` when `cycles > 1`, else
`0.5`. -/
noncomputable def set_annealing_parameters (N : ℕ) (J : ℕ → ℕ → ℝ)
    (cycles tau param_type : ℕ) : AnnealParams :=
  let mean_each := (List.range N).map fun j => ((N : ℝ) - 1) * npMean (rowList N J j)
  let std_each := (List.range N).map fun j =>
    Real.sqrt (((N : ℝ) - 1) * npVar (rowList N J j ++ (rowList N J j).map fun x => -x))
  let sigma := npMean std_each
  let I0_min :=
    if param_type = 1 then npMaxL std_each * 0.01 + npMinL (mean_each.map fun x => |x|)
    else if 0 < sigma then 0.1 / sigma else 0.1
  let I0_max :=
    if param_type = 1 then npMaxL std_each * 2 + npMinL (mean_each.map fun x => |x|)
    else if 0 < sigma then 10 / sigma else 10
  let beta :=
    if 1 < cycles then Real.rpow (I0_min / I0_max) ((tau : ℝ) / ((cycles : ℝ) - 1))
    else 0.5
  { I0_min := I0_min, I0_max := I0_max, beta := beta, tau := tau, cycles := cycles }

/-- The claim's formula for `sigma`: the mean over rows of
`sqrt((N-1) * var(concat(J_row, -J_row)))`. -/
noncomputable def specSigma (N : ℕ) (J : ℕ → ℕ → ℝ) : ℝ :=
  npMean ((List.range N).map fun j =>
    Real.sqrt (((N : ℝ) - 1) * npVar (rowList N J j ++ (rowList N J j).map fun x => -x)))

/-- The gain value held by the annealing loop of `run_psa_trials` after `k`
executions of `I0 /= beta` (lines 167-176), starting from `I0 = I0_min`. -/
noncomputable def gainSeq (I0_min beta : ℝ) : ℕ → ℝ
  | 0 => I0_min
  | k + 1 => gainSeq I0_min beta k / beta

/-- `RRAMpSA._spin_to_voltage` (lines 76-79): `{-1, 1} → {0, 1}` via
`(s + 1) / 2`. -/
noncomputable def spin_to_voltage (s : ℕ → ℝ) (i : ℕ) : ℝ := (s i + 1) / 2

/-- `RRAMpSA.calculate_local_field_rram` (lines 61-74) with the calibration
constant `field_scale = max_conductance * np.max(np.abs(J))` of
`_voltage_to_field` (lines 81-87) passed explicitly: map spins to voltages,
run the crossbar MVM, rescale, and add the external field. -/
noncomputable def calculate_local_field_rram (tiles : List (Tile ℝ)) (n : ℕ)
    (field_scale : ℝ) (hvec : ℕ → ℝ) (s : ℕ → ℝ) (i : ℕ) : ℝ :=
  rram_matrix_vector_multiply tiles n (spin_to_voltage s) i * field_scale + hvec i

/-- `RRAMpSA.psa_annealing_step` (lines 101-113): compute the local field,
form `Itanh = tanh(I0 * D) + noise`, and set each spin to
`1` where `Itanh > 0`, else `-1`. -/
noncomputable def psa_annealing_step (tiles : List (Tile ℝ)) (n : ℕ)
    (field_scale : ℝ) (hvec : ℕ → ℝ) (s : ℕ → ℝ) (I0 : ℝ) (noise : ℕ → ℝ)
    (i : ℕ) : ℝ :=
  if 0 < Real.tanh (I0 * calculate_local_field_rram tiles n field_scale hvec s i) + noise i
  then 1 else -1

/-- The spin trajectory of one trial of `run_psa_trials` (lines 160-176):
starting from the random initial spin vector, one `psa_annealing_step` per
inner iteration, fed with the gain value and noise vector of that
iteration. -/
noncomputable def annealTraj (tiles : List (Tile ℝ)) (n : ℕ) (field_scale : ℝ)
    (hvec : ℕ → ℝ) (gains : ℕ → ℝ) (noises : ℕ → ℕ → ℝ) (s0 : ℕ → ℝ) :
    ℕ → ℕ → ℝ
  | 0 => s0
  | k + 1 =>
      psa_annealing_step tiles n field_scale hvec
        (annealTraj tiles n field_scale hvec gains noises s0 k) (gains k) (noises k)

/-! ### Concrete instances used to exercise the embedded code -/

/-- A single node carrying a weight-5 self-loop (loadable from an edge-list
line `0 0 5`), with a 2-level device: a degenerate `max = min` input. -/
def mcSelfLoop : MaxCutInterface :=
  { num_nodes := 1, adjacency_matrix := fun _ _ => 5, xbar_rows := 128,
    xbar_cols := 128, device_levels := 2, device_resistance := [2, 3] }

/-- A 2-node graph with one edge of weight 1 and a 2-level device. -/
def mcTwoNode : MaxCutInterface :=
  { num_nodes := 2, adjacency_matrix := fun i j => if i = j then 0 else 1,
    xbar_rows := 128, xbar_cols := 128, device_levels := 2,
    device_resistance := [10, 5] }

/-- A configuration whose resistance table is longer than the device level
count. -/
def mcLongTable : MaxCutInterface :=
  { num_nodes := 1, adjacency_matrix := fun _ _ => 0, xbar_rows := 128,
    xbar_cols := 128, device_levels := 1, device_resistance := [100, 1000] }

/-- A configuration whose resistance table is shorter than the device level
count. -/
def mcShortTable : MaxCutInterface :=
  { num_nodes := 1, adjacency_matrix := fun _ _ => 0, xbar_rows := 128,
    xbar_cols := 128, device_levels := 3, device_resistance := [100, 1000] }

/-- The empty graph: zero nodes, zero edges (what the edge-list loader
produces for a file with no edge lines). -/
def mcEmpty : MaxCutInterface :=
  { num_nodes := 0, adjacency_matrix := fun _ _ => 0, xbar_rows := 128,
    xbar_cols := 128, device_levels := 2, device_resistance := [100, 1000] }

/-- A 2-node graph with a single edge of fractional weight `5/2`. -/
def mcHalf : MaxCutInterface :=
  { num_nodes := 2, adjacency_matrix := fun i j => if i = j then 0 else 5/2,
    xbar_rows := 128, xbar_cols := 128, device_levels := 2,
    device_resistance := [10, 5] }

/-- The spin assignment `(+1, -1)` on two nodes. -/
def spinsOpposite : ℕ → ℚ := fun i => if i = 0 then 1 else -1

/-! ### Helper lemmas -/

theorem findSome?_eq_none_of {α β : Type} (f : α → Option β) (l : List α)
    (h : ∀ x ∈ l, f x = none) : l.findSome? f = none :=
  List.findSome?_eq_none_iff.2 h

theorem findSome?_flatMap {α β γ : Type} (f : β → Option γ) (g : α → List β)
    (l : List α) :
    (l.flatMap g).findSome? f = l.findSome? fun x => (g x).findSome? f := by
  induction l with
  | nil => rfl
  | cons a t ih =>
      rw [List.flatMap_cons, List.findSome?_append, List.findSome?_cons]
      cases hga : (g a).findSome? f with
      | none => simp [hga, ih]
      | some b => simp [hga]

theorem findSome?_range_of {β : Type} (g : ℕ → Option β) {n j0 : ℕ} {b : β}
    (hj : j0 < n) (h0 : ∀ j, j < j0 → g j = none) (hg : g j0 = some b) :
    (List.range n).findSome? g = some b := by
  have hsplit : List.range n
      = List.range j0 ++ List.map (fun x => j0 + x) (List.range (n - j0)) := by
    rw [← List.range_add]
    congr 1
    omega
  have hrest : n - j0 = (n - j0 - 1) + 1 := by omega
  rw [hsplit, List.findSome?_append,
    findSome?_eq_none_of g _ (by intro x hx; exact h0 x (List.mem_range.1 hx))]
  rw [hrest, List.range_succ_eq_map, List.map_cons, List.findSome?_cons]
  have hz : j0 + 0 = j0 := by omega
  rw [hz, hg]
  rfl

theorem lt_ceilDiv_iff {b : ℕ} (hb : 0 < b) (x N : ℕ) :
    x < ceilDiv N b ↔ x * b < N := by
  unfold ceilDiv
  rw [show (x < (N + b - 1) / b ↔ x + 1 ≤ (N + b - 1) / b) from Iff.rfl,
    Nat.le_div_iff_mul_le hb]
  have hx : (x + 1) * b = x * b + b := by ring
  omega

theorem foldr_min_le_mem {l : List ℚ} {a x : ℚ} (hx : x ∈ l) :
    l.foldr min a ≤ x := by
  induction l with
  | nil => cases hx
  | cons h t ih =>
      rcases List.mem_cons.1 hx with rfl | hmem
      · exact min_le_left _ _
      · exact le_trans (min_le_right _ _) (ih hmem)

theorem le_foldr_max_mem {l : List ℚ} {a x : ℚ} (hx : x ∈ l) :
    x ≤ l.foldr max a := by
  induction l with
  | nil => cases hx
  | cons h t ih =>
      rcases List.mem_cons.1 hx with rfl | hmem
      · exact le_max_left _ _
      · exact le_trans (ih hmem) (le_max_right _ _)

theorem mem_matList {N : ℕ} {W : ℕ → ℕ → ℚ} {i j : ℕ} (hi : i < N) (hj : j < N) :
    W i j ∈ matList N W := by
  unfold matList
  rw [List.mem_flatMap]
  exact ⟨i, List.mem_range.2 hi, List.mem_map.2 ⟨j, List.mem_range.2 hj, rfl⟩⟩

theorem floor_le_npRound (q : ℚ) : ⌊q⌋ ≤ npRound q := by
  unfold npRound
  split
  · exact le_refl _
  · split
    · omega
    · split <;> omega

theorem npRound_le_floor_add_one (q : ℚ) : npRound q ≤ ⌊q⌋ + 1 := by
  unfold npRound
  split
  · omega
  · split
    · omega
    · split <;> omega

theorem npRound_nonneg {q : ℚ} (h : 0 ≤ q) : 0 ≤ npRound q := by
  have h1 : (0 : ℤ) ≤ ⌊q⌋ := Int.le_floor.2 (by exact_mod_cast h)
  exact le_trans h1 (floor_le_npRound q)

theorem npRound_le_of_le {q : ℚ} {m : ℤ} (h : q ≤ (m : ℚ)) : npRound q ≤ m := by
  have hfl : ⌊q⌋ ≤ m := by
    have h2 := Int.floor_mono h
    simpa using h2
  rcases lt_or_eq_of_le hfl with hlt | heq
  · exact le_trans (npRound_le_floor_add_one q) (by omega)
  · have hq : q = (m : ℚ) := by
      have h1 : (m : ℚ) ≤ q := by
        rw [← heq]
        exact_mod_cast Int.floor_le q
      exact le_antisymm h h1
    subst hq
    unfold npRound
    rw [Int.floor_intCast]
    norm_num

theorem sum_map_const {α : Type} (l : List α) (c : ℕ) :
    (l.map fun _ => c).sum = l.length * c := by
  induction l with
  | nil => simp
  | cons a t ih => simp [ih]; ring

/-- C1: for every `N×N` resistance matrix and every tile shape with positive
dimensions, `partition_matrix_to_crossbars` produces exactly
`ceil(N/Rt) * ceil(N/Ct)` tiles, with origins in row-major order; each tile's
occupied sub-shape is `min(Rt, N-i) × min(Ct, N-j)` for origin `(i, j)`; and
de-padding the tiles and reassembling them at their origins reconstructs the
original matrix exactly. -/
theorem C1_partition_reconstruction (M : ℕ → ℕ → ℚ) (N Rt Ct : ℕ)
    (hR : 0 < Rt) (hC : 0 < Ct) :
    (crossbarTiles M N Rt Ct).length = ceilDiv N Rt * ceilDiv N Ct
    ∧ (crossbarTiles M N Rt Ct).map (fun t => (t.posI, t.posJ))
        = (List.range (ceilDiv N Rt)).flatMap
            (fun bi => (List.range (ceilDiv N Ct)).map fun bj => (bi * Rt, bj * Ct))
    ∧ (∀ t ∈ crossbarTiles M N Rt Ct,
        t.actRows = min Rt (N - t.posI) ∧ t.actCols = min Ct (N - t.posJ))
    ∧ (∀ r c, r < N → c < N →
        reassemble (crossbarTiles M N Rt Ct) r c = some (M r c)) := by
  have hlen : (crossbarTiles M N Rt Ct).length = ceilDiv N Rt * ceilDiv N Ct := by
    unfold crossbarTiles
    rw [List.length_flatMap]
    simp only [Function.comp_def, List.length_map]
    rw [sum_map_const]
    simp [List.length_range]
  have horder : (crossbarTiles M N Rt Ct).map (fun t => (t.posI, t.posJ))
      = (List.range (ceilDiv N Rt)).flatMap
          (fun bi => (List.range (ceilDiv N Ct)).map fun bj => (bi * Rt, bj * Ct)) := by
    unfold crossbarTiles
    rw [List.map_flatMap]
    simp [List.map_map, Function.comp_def, mkTile]
  have hshape : ∀ t ∈ crossbarTiles M N Rt Ct,
      t.actRows = min Rt (N - t.posI) ∧ t.actCols = min Ct (N - t.posJ) := by
    intro t ht
    unfold crossbarTiles at ht
    rw [List.mem_flatMap] at ht
    obtain ⟨bi, hbi, ht⟩ := ht
    rw [List.mem_map] at ht
    obtain ⟨bj, hbj, rfl⟩ := ht
    rw [List.mem_range] at hbi hbj
    have h1 : bi * Rt < N := (lt_ceilDiv_iff hR bi N).1 hbi
    have h2 : bj * Ct < N := (lt_ceilDiv_iff hC bj N).1 hbj
    simp only [mkTile]
    constructor <;> omega
  have hrec : ∀ r c, r < N → c < N →
      reassemble (crossbarTiles M N Rt Ct) r c = some (M r c) := by
    intro r c hr hc
    have hdivR : r / Rt * Rt ≤ r := Nat.div_mul_le_self r Rt
    have hmodR : Rt * (r / Rt) + r % Rt = r := Nat.div_add_mod r Rt
    have hmodR2 : r % Rt < Rt := Nat.mod_lt _ hR
    have hdivC : c / Ct * Ct ≤ c := Nat.div_mul_le_self c Ct
    have hmodC : Ct * (c / Ct) + c % Ct = c := Nat.div_add_mod c Ct
    have hmodC2 : c % Ct < Ct := Nat.mod_lt _ hC
    unfold reassemble crossbarTiles
    rw [findSome?_flatMap]
    apply findSome?_range_of _ ((lt_ceilDiv_iff hR _ N).2 (lt_of_le_of_lt hdivR hr))
    · intro bi hbi
      rw [List.findSome?_map]
      apply findSome?_eq_none_of
      intro bj _
      simp only [Function.comp_def, depad, mkTile]
      exact if_neg (by
        rintro ⟨-, h2, -, -⟩
        have hsucc : (bi + 1) * Rt ≤ r / Rt * Rt := Nat.mul_le_mul_right Rt hbi
        have e : (bi + 1) * Rt = bi * Rt + Rt := by ring
        omega)
    · rw [List.findSome?_map]
      apply findSome?_range_of _ ((lt_ceilDiv_iff hC _ N).2 (lt_of_le_of_lt hdivC hc))
      · intro bj hbj
        simp only [Function.comp_def, depad, mkTile]
        exact if_neg (by
          rintro ⟨-, -, -, h4⟩
          have hsucc : (bj + 1) * Ct ≤ c / Ct * Ct := Nat.mul_le_mul_right Ct hbj
          have e : (bj + 1) * Ct = bj * Ct + Ct := by ring
          omega)
      · simp only [Function.comp_def, depad, mkTile]
        have hcondR : r < r / Rt * Rt + (min (r / Rt * Rt + Rt) N - r / Rt * Rt) := by
          have hcm : Rt * (r / Rt) = r / Rt * Rt := Nat.mul_comm _ _
          omega
        have hcondC : c < c / Ct * Ct + (min (c / Ct * Ct + Ct) N - c / Ct * Ct) := by
          have hcm : Ct * (c / Ct) = c / Ct * Ct := Nat.mul_comm _ _
          omega
        rw [if_pos ⟨hdivR, hcondR, hdivC, hcondC⟩]
        rw [if_pos ⟨by omega, by omega⟩]
        have e1 : r / Rt * Rt + (r - r / Rt * Rt) = r := by omega
        have e2 : c / Ct * Ct + (c - c / Ct * Ct) = c := by omega
        rw [e1, e2]
  exact ⟨hlen, horder, hshape, hrec⟩

/-- C1 witness: a concrete `3×3` matrix with `2×2` tiles gives
`ceil(3/2)^2 = 4` tiles and reconstructs the entry at `(2, 1)`. -/
theorem C1_partition_reconstruction_witness :
    (0 : ℕ) < 2 ∧ (crossbarTiles (fun i j => (10 * i + j : ℚ)) 3 2 2).length = 4 ∧
      reassemble (crossbarTiles (fun i j => (10 * i + j : ℚ)) 3 2 2) 2 1 = some 21 := by
  have h := C1_partition_reconstruction (fun i j => (10 * i + j : ℚ)) 3 2 2
    (by norm_num) (by norm_num)
  refine ⟨by norm_num, ?_, ?_⟩
  · rw [h.1]
    norm_num [ceilDiv]
  · have h4 := h.2.2.2 2 1 (by norm_num) (by norm_num)
    rw [h4]
    norm_num

theorem tileCurrent_linear (t : Tile ℚ) (a b : ℚ) (v1 v2 : ℕ → ℚ) (k : ℕ) :
    tileCurrent t (fun i => a * v1 i + b * v2 i) k
      = a * tileCurrent t v1 k + b * tileCurrent t v2 k := by
  unfold tileCurrent
  rw [Finset.mul_sum, Finset.mul_sum, ← Finset.sum_add_distrib]
  apply Finset.sum_congr rfl
  intro c _
  split <;> ring

theorem tileContrib_linear (t : Tile ℚ) (a b : ℚ) (v1 v2 : ℕ → ℚ) (r : ℕ) :
    tileContrib t (fun i => a * v1 i + b * v2 i) r
      = a * tileContrib t v1 r + b * tileContrib t v2 r := by
  unfold tileContrib
  split
  · exact tileCurrent_linear t a b v1 v2 _
  · ring

/-- C2: the tiled crossbar matrix-vector multiply is linear — for every tile
sequence, every input vectors `v1, v2` and scalars `a, b`, and every output
row, `mvm(a·v1 + b·v2) = a·mvm(v1) + b·mvm(v2)` exactly (the embedding is a
pure function of its inputs: deterministic, no hidden state). -/
theorem C2_mvm_linearity (ts : List (Tile ℚ)) (n : ℕ) (a b : ℚ)
    (v1 v2 : ℕ → ℚ) (r : ℕ) :
    rram_matrix_vector_multiply ts n (fun i => a * v1 i + b * v2 i) r
      = a * rram_matrix_vector_multiply ts n v1 r
        + b * rram_matrix_vector_multiply ts n v2 r := by
  unfold rram_matrix_vector_multiply
  split
  · induction ts with
    | nil => simp
    | cons t rest ih =>
        simp only [List.map_cons, List.sum_cons]
        rw [tileContrib_linear, ih]
        ring
  · ring

/-- C3 counterexample: on the degenerate input `mcSelfLoop` (a 1×1 matrix
with entry 5, `max(W) = min(W) = 5`), the normalized matrix is `W` itself,
the rounded level `round(5·(L−1)) = 5` falls outside `[0, L−1]`, and the
output entry is `0`, which is not an element of the resistance table — so
the claim that every output entry is an element of `R` fails. -/
theorem C3_counterexample :
    mcSelfLoop.resistanceEntry 0 0 = 0 ∧ (0 : ℚ) ∉ ([2, 3] : List ℚ) := by
  constructor
  · norm_num [MaxCutInterface.resistanceEntry, MaxCutInterface.quantized_level,
      MaxCutInterface.wNorm, MaxCutInterface.wMin, MaxCutInterface.wMax,
      mcSelfLoop, matList, npRound, List.range_succ]
  · norm_num

/-- C3 (amended): for a matrix with at least one entry, `L ≥ 1` device levels
and a resistance table of length `L`: if `max(W) = min(W)` the quantizer uses
`W` itself as the normalized matrix, otherwise it normalizes via
`(W−min)/(max−min)`; each entry is mapped to level `round(x·(L−1))` and
replaced by `R[level]` whenever that level lies in `[0, L−1]`, and by `0`
otherwise; in the non-degenerate case `max(W) > min(W)` every level does lie
in `[0, L−1]`, so every output entry is an element of `R`. -/
theorem C3_quantizer_amended (mc : MaxCutInterface)
    (hN : 0 < mc.num_nodes) (hL : 0 < mc.device_levels)
    (hlen : mc.device_resistance.length = mc.device_levels) :
    (mc.wMax = mc.wMin → ∀ i j, mc.wNorm i j = mc.adjacency_matrix i j)
    ∧ (mc.wMin < mc.wMax → ∀ i j,
        mc.wNorm i j = (mc.adjacency_matrix i j - mc.wMin) / (mc.wMax - mc.wMin))
    ∧ (∀ i j, ¬ (0 ≤ mc.quantized_level i j
          ∧ mc.quantized_level i j < (mc.device_levels : ℤ)) →
        mc.resistanceEntry i j = 0)
    ∧ (mc.wMin < mc.wMax → ∀ i j, i < mc.num_nodes → j < mc.num_nodes →
        0 ≤ mc.quantized_level i j
        ∧ mc.quantized_level i j < (mc.device_levels : ℤ)
        ∧ mc.resistanceEntry i j
            = mc.device_resistance.getD (mc.quantized_level i j).toNat 0
        ∧ mc.resistanceEntry i j ∈ mc.device_resistance) := by
  refine ⟨?_, ?_, ?_, ?_⟩
  · intro heq i j
    unfold MaxCutInterface.wNorm
    rw [if_neg (by rw [heq]; exact lt_irrefl _)]
  · intro hlt i j
    unfold MaxCutInterface.wNorm
    rw [if_pos hlt]
  · intro i j hng
    unfold MaxCutInterface.resistanceEntry
    rw [if_neg hng]
  · intro hlt i j hi hj
    have hmem := mem_matList (W := mc.adjacency_matrix) hi hj
    have hlow : mc.wMin ≤ mc.adjacency_matrix i j := foldr_min_le_mem hmem
    have hhigh : mc.adjacency_matrix i j ≤ mc.wMax := le_foldr_max_mem hmem
    have hden : 0 < mc.wMax - mc.wMin := sub_pos.2 hlt
    have hnorm0 : 0 ≤ mc.wNorm i j := by
      unfold MaxCutInterface.wNorm
      rw [if_pos hlt]
      exact div_nonneg (by linarith) hden.le
    have hnorm1 : mc.wNorm i j ≤ 1 := by
      unfold MaxCutInterface.wNorm
      rw [if_pos hlt, div_le_one hden]
      linarith
    have hL1 : (1 : ℚ) ≤ (mc.device_levels : ℚ) := by exact_mod_cast hL
    have hq0 : 0 ≤ mc.wNorm i j * ((mc.device_levels : ℚ) - 1) :=
      mul_nonneg hnorm0 (by linarith)
    have hq1 : mc.wNorm i j * ((mc.device_levels : ℚ) - 1)
        ≤ (((mc.device_levels : ℤ) - 1 : ℤ) : ℚ) := by
      push_cast
      nlinarith
    have hlev0 : 0 ≤ mc.quantized_level i j := npRound_nonneg hq0
    have hlev1 : mc.quantized_level i j ≤ (mc.device_levels : ℤ) - 1 :=
      npRound_le_of_le hq1
    have hlevlt : mc.quantized_level i j < (mc.device_levels : ℤ) := by omega
    have hidx : (mc.quantized_level i j).toNat < mc.device_resistance.length := by
      rw [hlen]
      omega
    refine ⟨hlev0, hlevlt, ?_, ?_⟩
    · unfold MaxCutInterface.resistanceEntry
      rw [if_pos ⟨hlev0, hlevlt⟩]
    · unfold MaxCutInterface.resistanceEntry
      rw [if_pos ⟨hlev0, hlevlt⟩, List.getD_eq_getElem _ _ hidx]
      exact List.getElem_mem hidx

/-- C3 witness: on the 2-node single-edge graph `mcTwoNode` the quantizer is
in the non-degenerate branch, and the entry for the edge `(0, 1)` is an
element of the resistance table. -/
theorem C3_quantizer_amended_witness :
    (0 : ℕ) < 2 ∧ 0 < 2 ∧ ([ (10 : ℚ), 5]).length = 2
      ∧ mcTwoNode.resistanceEntry 0 1 ∈ mcTwoNode.device_resistance := by
  have hlt : mcTwoNode.wMin < mcTwoNode.wMax := by
    norm_num [MaxCutInterface.wMin, MaxCutInterface.wMax, mcTwoNode, matList,
      List.range_succ]
  have h := C3_quantizer_amended mcTwoNode (by norm_num [mcTwoNode])
    (by norm_num [mcTwoNode]) (by norm_num [mcTwoNode])
  exact ⟨by norm_num, by norm_num, by norm_num,
    (h.2.2.2 hlt 0 1 (by norm_num [mcTwoNode]) (by norm_num [mcTwoNode])).2.2.2⟩

/-- C4: with parameterization mode 2, calibration returns
`I0_min = 0.1/sigma` and `I0_max = 10/sigma` when `sigma > 0` (and `0.1`,
`10` when `sigma ≤ 0`), where `sigma` is the mean over rows of
`sqrt((N−1)·var(concat(J_row, −J_row)))`; and
`beta = (I0_min/I0_max)^(tau/(cycles−1))` when `cycles > 1`, else `0.5`. -/
theorem C4_calibration_mode2 (N cycles tau : ℕ) (J : ℕ → ℕ → ℝ) :
    ((0 < specSigma N J →
        (set_annealing_parameters N J cycles tau 2).I0_min = 0.1 / specSigma N J
        ∧ (set_annealing_parameters N J cycles tau 2).I0_max = 10 / specSigma N J)
      ∧ (specSigma N J ≤ 0 →
        (set_annealing_parameters N J cycles tau 2).I0_min = 0.1
        ∧ (set_annealing_parameters N J cycles tau 2).I0_max = 10))
    ∧ (1 < cycles →
        (set_annealing_parameters N J cycles tau 2).beta
          = Real.rpow ((set_annealing_parameters N J cycles tau 2).I0_min
              / (set_annealing_parameters N J cycles tau 2).I0_max)
              ((tau : ℝ) / ((cycles : ℝ) - 1)))
    ∧ (cycles ≤ 1 → (set_annealing_parameters N J cycles tau 2).beta = 0.5) := by
  have hσ : specSigma N J = npMean ((List.range N).map fun j =>
      Real.sqrt (((N : ℝ) - 1)
        * npVar (rowList N J j ++ (rowList N J j).map fun x => -x))) := rfl
  refine ⟨⟨?_, ?_⟩, ?_, ?_⟩
  · intro h
    rw [hσ] at h
    constructor <;> simp [set_annealing_parameters, h, hσ]
  · intro h
    rw [hσ] at h
    have h2 : ¬ (0 < npMean ((List.range N).map fun j =>
        Real.sqrt (((N : ℝ) - 1)
          * npVar (rowList N J j ++ (rowList N J j).map fun x => -x)))) :=
      not_lt.2 h
    constructor <;> simp [set_annealing_parameters, h2]
  · intro h
    simp [set_annealing_parameters, h]
  · intro h
    have h2 : ¬ (1 < cycles) := not_lt.2 h
    simp [set_annealing_parameters, h2]

/-- C4 witness: on the 2-node all-`−1` coupling matrix, `sigma = 1 > 0` and
the mode-2 gain range is `(0.1/sigma, 10/sigma)`. -/
theorem C4_calibration_mode2_witness :
    0 < specSigma 2 (fun _ _ => -1) ∧
    (set_annealing_parameters 2 (fun _ _ => -1) 200 1 2).I0_min
      = 0.1 / specSigma 2 (fun _ _ => -1) ∧
    (set_annealing_parameters 2 (fun _ _ => -1) 200 1 2).I0_max
      = 10 / specSigma 2 (fun _ _ => -1) := by
  have hs : specSigma 2 (fun _ _ => -1) = 1 := by
    norm_num [specSigma, npMean, npVar, rowList, List.range_succ]
  have h := (C4_calibration_mode2 2 200 1 (fun _ _ => -1)).1.1
    (by rw [hs]; norm_num)
  exact ⟨by rw [hs]; norm_num, h.1, h.2⟩

/-- C5: for every spin vector, the post-trial cut value computed by
`calculate_cut_value_rram` equals `Σ_{i<j} w_ij · (1 − s_i·s_j)/2` over the
original adjacency matrix stored by the solver constructor — not over the
quantized resistance matrix and not over the Ising coupling matrix `J`. -/
theorem C5_cut_value_uses_original_weights (mc : MaxCutInterface) (s : ℕ → ℚ) :
    calculate_cut_value_rram (RRAMpSA.init mc) s
      = ∑ i ∈ Finset.range mc.num_nodes, ∑ j ∈ Finset.Ico (i + 1) mc.num_nodes,
          mc.adjacency_matrix i j * ((1 - s i * s j) / 2) := by
  unfold calculate_cut_value_rram RRAMpSA.init
  rw [Finset.sum_div]
  apply Finset.sum_congr rfl
  intro i _
  rw [Finset.sum_div]
  rw [show Finset.Ico (i + 1) mc.num_nodes
      = (Finset.range mc.num_nodes).filter (fun j => i < j) from ?_]
  · rw [Finset.sum_filter]
    apply Finset.sum_congr rfl
    intro j _
    split
    · ring
    · simp
  · ext j
    simp [Finset.mem_filter, Finset.mem_Ico, Finset.mem_range]
    omega

theorem setParams_beta_one :
    set_annealing_parameters 1 (fun _ _ => 0) 2 0 2
      = { I0_min := 0.1, I0_max := 10, beta := 1, tau := 0, cycles := 2 } := by
  simp [set_annealing_parameters, npMean, npVar, rowList, List.range_succ,
    Real.rpow_zero]

theorem gainSeq_beta_one (a : ℝ) : ∀ k, gainSeq a 1 k = a := by
  intro k
  induction k with
  | zero => rfl
  | succ n ih => simp [gainSeq, ih]

/-- C6: the claim that the implementation guards a schedule with `beta ≥ 1`
(by an iteration cap or a ConfigError) fails: the reachable configuration
`cycles = 2, tau = 0`, mode 2, yields `beta = (I0_min/I0_max)^0 = 1` exactly,
and then every iterate of the gain update `I0 /= beta` still satisfies the
loop guard `I0 ≤ I0_max`, so the `while` loop of `run_psa_trials`
(lines 168-176) never exits; the embedded code raises nothing. -/
theorem C6_runaway_schedule_not_guarded :
    (set_annealing_parameters 1 (fun _ _ => 0) 2 0 2).beta = 1
    ∧ (set_annealing_parameters 1 (fun _ _ => 0) 2 0 2).I0_min
        ≤ (set_annealing_parameters 1 (fun _ _ => 0) 2 0 2).I0_max
    ∧ ∀ k, gainSeq (set_annealing_parameters 1 (fun _ _ => 0) 2 0 2).I0_min
        (set_annealing_parameters 1 (fun _ _ => 0) 2 0 2).beta k
        ≤ (set_annealing_parameters 1 (fun _ _ => 0) 2 0 2).I0_max := by
  rw [setParams_beta_one]
  refine ⟨rfl, by norm_num, ?_⟩
  intro k
  rw [gainSeq_beta_one]
  norm_num

/-- C7 counterexample: with a resistance table longer than the device level
count (`len(R) = 2 ≠ L = 1`), the quantizer succeeds silently — it returns
the quantized matrix and raises nothing — contradicting the claim that any
length mismatch fails with a ConfigError. -/
theorem C7_counterexample :
    mcLongTable.quantize_weights = Except.ok mcLongTable.resistanceEntry
    ∧ mcLongTable.device_resistance.length ≠ mcLongTable.device_levels := by
  constructor
  · rfl
  · norm_num [mcLongTable]

/-- C7 (amended): the code defines no ConfigError. For a matrix with at
least one entry: if the table is shorter than the device level count, the
quantizer raises IndexError the first time it runs (which happens during
solver construction, before any solving); if the table is at least as long
as the device level count — including strictly longer, a length mismatch —
it succeeds silently. -/
theorem C7_quantizer_error_amended (mc : MaxCutInterface)
    (hN : mc.num_nodes ≠ 0) :
    (mc.device_resistance.length < mc.device_levels →
        mc.quantize_weights = Except.error PyError.indexError)
    ∧ (mc.device_levels ≤ mc.device_resistance.length →
        mc.quantize_weights = Except.ok mc.resistanceEntry) := by
  unfold MaxCutInterface.quantize_weights
  rw [if_neg hN]
  constructor
  · intro h
    rw [if_pos h]
  · intro h
    rw [if_neg (not_lt.2 h)]

/-- C7 witness: the short-table configuration (`L = 3`, `len(R) = 2`) raises
IndexError. -/
theorem C7_quantizer_error_amended_witness :
    mcShortTable.quantize_weights = Except.error PyError.indexError :=
  (C7_quantizer_error_amended mcShortTable (by norm_num [mcShortTable])).1
    (by norm_num [mcShortTable])

/-- C8: evaluating the embedded quantizer at the failing input — the empty
(zero-node, zero-edge) graph — shows the pipeline raising `ValueError`
(numpy `W.min()` over an empty array) during solver construction instead of
completing with cut value 0 as the claim requires. -/
theorem C8_empty_graph_crash :
    mcEmpty.quantize_weights = Except.error PyError.valueError := rfl

/-- C9 counterexample: a 2-node graph with edge weight `5/2` and final spins
`(+1, −1)` has evaluator cut value `5/2`, but the trial records
`int(5/2) = 2` in `cut_list` and the aggregate mean over the recorded list
is `2 ≠ 5/2` — the recorded values and statistics are truncated, not the
evaluator's float values. -/
theorem C9_counterexample :
    calculate_cut_value_rram (RRAMpSA.init mcHalf) spinsOpposite = 5/2
    ∧ (run_psa_trials (RRAMpSA.init mcHalf) 1 fun _ => spinsOpposite).cut_list = [2]
    ∧ cut_avg (run_psa_trials (RRAMpSA.init mcHalf) 1 fun _ => spinsOpposite) = 2
    ∧ (5/2 : ℚ) ≠ 2 := by
  have hc : calculate_cut_value_rram (RRAMpSA.init mcHalf) spinsOpposite = 5/2 := by
    norm_num [calculate_cut_value_rram, RRAMpSA.init, mcHalf, spinsOpposite,
      Finset.sum_range_succ]
  have hl : (run_psa_trials (RRAMpSA.init mcHalf) 1 fun _ => spinsOpposite).cut_list
      = [2] := by
    simp [run_psa_trials, List.range_succ, trialUpdate, hc]
    norm_num [pyInt]
  refine ⟨hc, hl, ?_, by norm_num⟩
  rw [cut_avg, hl]
  norm_num

theorem run_trials_cut_list (p : RRAMpSA) (fs : ℕ → ℕ → ℚ) :
    ∀ (l : List ℕ) (st : TrialState),
      ((l.foldl (fun st t => trialUpdate p st (fs t)) st).cut_list)
        = st.cut_list ++ l.map fun t => pyInt (calculate_cut_value_rram p (fs t)) := by
  intro l
  induction l with
  | nil => intro st; simp
  | cons a t ih =>
      intro st
      rw [List.foldl_cons, ih]
      simp [trialUpdate]

/-- C9 (amended): each trial's recorded cut value is `int(final_cut)` — the
evaluator's value truncated toward zero — and the aggregate statistics are
computed over this truncated integer list (only the best-cut tracking
compares the untruncated values): for every run, `cut_list` is exactly the
per-trial truncations, and the mean is the mean of those integers. -/
theorem C9_aggregation_amended (p : RRAMpSA) (T : ℕ) (fs : ℕ → ℕ → ℚ) :
    (run_psa_trials p T fs).cut_list
      = (List.range T).map (fun t => pyInt (calculate_cut_value_rram p (fs t)))
    ∧ cut_avg (run_psa_trials p T fs)
      = (((List.range T).map fun t =>
          (Int.cast (pyInt (calculate_cut_value_rram p (fs t))) : ℚ)).sum) / T := by
  have h1 : (run_psa_trials p T fs).cut_list
      = (List.range T).map fun t => pyInt (calculate_cut_value_rram p (fs t)) := by
    rw [run_psa_trials, run_trials_cut_list]
    simp
  refine ⟨h1, ?_⟩
  rw [cut_avg, h1, List.map_map, List.length_map, List.length_range]
  rfl

/-- C10: for every input spin vector, every gain value and every noise
vector, one `psa_annealing_step` output has every component exactly `−1` or
`+1`; consequently, along any trial trajectory whose randomly initialised
spins are `±1`, the spin vector stays in `{−1, +1}^N` through every
iteration of the annealing loop. -/
theorem C10_spins_stay_pm_one (tiles : List (Tile ℝ)) (n : ℕ)
    (field_scale : ℝ) (hvec : ℕ → ℝ) :
    (∀ (s noise : ℕ → ℝ) (I0 : ℝ) (i : ℕ),
        psa_annealing_step tiles n field_scale hvec s I0 noise i = 1
        ∨ psa_annealing_step tiles n field_scale hvec s I0 noise i = -1)
    ∧ (∀ (gains : ℕ → ℝ) (noises : ℕ → ℕ → ℝ) (s0 : ℕ → ℝ),
        (∀ i, s0 i = 1 ∨ s0 i = -1) →
        ∀ k i, annealTraj tiles n field_scale hvec gains noises s0 k i = 1
          ∨ annealTraj tiles n field_scale hvec gains noises s0 k i = -1) := by
  have hstep : ∀ (s noise : ℕ → ℝ) (I0 : ℝ) (i : ℕ),
      psa_annealing_step tiles n field_scale hvec s I0 noise i = 1
      ∨ psa_annealing_step tiles n field_scale hvec s I0 noise i = -1 := by
    intro s noise I0 i
    unfold psa_annealing_step
    split
    · exact Or.inl rfl
    · exact Or.inr rfl
  refine ⟨hstep, ?_⟩
  intro gains noises s0 h0 k
  induction k with
  | zero => exact h0
  | succ m _ =>
      intro i
      exact hstep _ _ _ i

/-- C10 witness: a concrete three-step trajectory from the all-ones spin
vector on a one-node system keeps the spin in `{−1, +1}`. -/
theorem C10_spins_stay_pm_one_witness :
    annealTraj [] 1 0 (fun _ => 0) (fun _ => 0) (fun _ _ => 0) (fun _ => 1) 3 0 = 1
    ∨ annealTraj [] 1 0 (fun _ => 0) (fun _ => 0) (fun _ _ => 0) (fun _ => 1) 3 0 = -1 :=
  (C10_spins_stay_pm_one [] 1 0 (fun _ => 0)).2 (fun _ => 0) (fun _ _ => 0)
    (fun _ => 1) (fun _ => Or.inl rfl) 3 0
